import Mathlib

/-!
# Verification of the NASDAQ-100 financial-analysis pipeline

Shallow embedding of the core logic of `NASDAQ_100_Annual_Analysis.py` and
`Nasdaq_100_Quartely_Analysis.py` (the two scripts share the merge / derive /
score / rank logic verbatim up to period granularity).

Numeric cells of the pandas frames are float64 values.  We embed them as the
type `Fl` below: `nan` is NumPy NaN (the "not-available" marker produced by
`pd.to_numeric(..., errors='coerce')` and by missing fields), `inf`/`ninf` are
the two IEEE infinities (produced, e.g., by float division by zero), and
`num q` is a finite value carried as an exact rational.  Rounding of float64
arithmetic is not modelled; every identity claimed below is exact in the
source domain as well.  All operations are total functions — the embedded
arithmetic can never raise, mirroring NumPy float semantics.
-/

/-- A pandas/NumPy float64 cell value: NaN, the two infinities, or a finite
value (exact rational). -/
inductive Fl where
  | nan : Fl
  | inf : Fl
  | ninf : Fl
  | num : ℚ → Fl
deriving DecidableEq, Repr

namespace Fl

/-- IEEE negation. -/
def neg : Fl → Fl
  | nan => nan
  | inf => ninf
  | ninf => inf
  | num a => num (-a)

/-- IEEE addition: NaN propagates; `inf + ninf = nan`. -/
def add : Fl → Fl → Fl
  | nan, _ => nan
  | _, nan => nan
  | inf, ninf => nan
  | ninf, inf => nan
  | inf, _ => inf
  | ninf, _ => ninf
  | num _, inf => inf
  | num _, ninf => ninf
  | num a, num b => num (a + b)

/-- IEEE subtraction, via `x + (-y)`. -/
def sub (x y : Fl) : Fl := add x (neg y)

/-- IEEE multiplication: NaN propagates; `inf * 0 = nan`. -/
def mul : Fl → Fl → Fl
  | nan, _ => nan
  | _, nan => nan
  | inf, inf => inf
  | inf, ninf => ninf
  | ninf, inf => ninf
  | ninf, ninf => inf
  | inf, num b => if b = 0 then nan else if 0 < b then inf else ninf
  | ninf, num b => if b = 0 then nan else if 0 < b then ninf else inf
  | num a, inf => if a = 0 then nan else if 0 < a then inf else ninf
  | num a, ninf => if a = 0 then nan else if 0 < a then ninf else inf
  | num a, num b => num (a * b)

/-- IEEE division (signed zeros collapsed, the dividend's zero taken as +0):
NaN propagates; a nonzero finite value divided by zero gives a signed
infinity; `0/0 = nan`; `inf/inf = nan`; a finite value divided by an infinity
gives 0. -/
def div : Fl → Fl → Fl
  | nan, _ => nan
  | _, nan => nan
  | inf, inf => nan
  | inf, ninf => nan
  | ninf, inf => nan
  | ninf, ninf => nan
  | inf, num b => if b < 0 then ninf else inf
  | ninf, num b => if b < 0 then inf else ninf
  | num _, inf => num 0
  | num _, ninf => num 0
  | num a, num b =>
      if b = 0 then (if a = 0 then nan else if 0 < a then inf else ninf)
      else num (a / b)

/-- pandas `pd.notna`: everything except NaN counts as available (in
particular `pd.notna(inf) = True`). -/
def notna : Fl → Bool
  | nan => false
  | _ => true

/-- pandas `Series.fillna(0)` applied to one cell. -/
def fillna0 (x : Fl) : Fl := if x = nan then num 0 else x

@[simp] theorem fillna0_nan : fillna0 nan = num 0 := rfl

@[simp] theorem fillna0_num (q : ℚ) : fillna0 (num q) = num q := rfl

@[simp] theorem fillna0_inf : fillna0 inf = inf := rfl

@[simp] theorem fillna0_ninf : fillna0 ninf = ninf := rfl

end Fl

/-- Embedding of one cell of the percentage-change computation
`df.groupby('Symbol')[col].transform(lambda x: ((x - x.shift(1))/x.shift(1))*100)`
(`NASDAQ_100_Annual_Analysis.py` lines 98/101/104, quarterly lines 81-83):
`cur` is the row's own value and `prev` the value shifted in from the
chronologically prior row of the same symbol group (NaN for the first row). -/
def pct_change (cur prev : Fl) : Fl :=
  Fl.mul (Fl.div (Fl.sub cur prev) prev) (Fl.num 100)

/-- Embedding of
`(df['Current_Liabilities'].fillna(0) + df['Other_Current_Liabilities'].fillna(0)) / df['Total_Assets'] * 100`
(`NASDAQ_100_Annual_Analysis.py` line 107, quarterly line 86). -/
def liability_to_asset_ratio (cl ocl ta : Fl) : Fl :=
  Fl.mul (Fl.div (Fl.add (Fl.fillna0 cl) (Fl.fillna0 ocl)) ta) (Fl.num 100)

/-- Embedding of the `Final_Score` column
`df_combined["GP_Trend_Score"] + df_combined["Liability_Trend_Score"] +
 df_combined["EPS_Trend_Score"] + df_combined["Liability_to_Asset_Score"]`
(`NASDAQ_100_Annual_Analysis.py` lines 193-198, quarterly lines 170-175):
element-wise pandas float addition. -/
def final_score (gp liab eps ratioScore : Fl) : Fl :=
  Fl.add (Fl.add (Fl.add gp liab) eps) ratioScore

example : pct_change (Fl.num 110) (Fl.num 100) = Fl.num 10 := by
  norm_num [pct_change, Fl.mul, Fl.div, Fl.sub, Fl.add, Fl.neg]

example : pct_change (Fl.num 110) (Fl.num 0) = Fl.inf := by
  norm_num [pct_change, Fl.mul, Fl.div, Fl.sub, Fl.add, Fl.neg]

example : pct_change (Fl.num 0) (Fl.num 0) = Fl.nan := by
  norm_num [pct_change, Fl.mul, Fl.div, Fl.sub, Fl.add, Fl.neg]

example : liability_to_asset_ratio (Fl.num 50) (Fl.num 10) (Fl.num 200) = Fl.num 30 := by
  norm_num [liability_to_asset_ratio, Fl.mul, Fl.div, Fl.add]

example : liability_to_asset_ratio (Fl.num 50) (Fl.num 10) (Fl.num 0) = Fl.inf := by
  norm_num [liability_to_asset_ratio, Fl.mul, Fl.div, Fl.add]

example : final_score (Fl.num 0) (Fl.num 0) (Fl.num 0) Fl.nan = Fl.nan := by
  norm_num [final_score, Fl.add]

/-- Ordinary-least-squares slope of the values `ys` against their positional
index `0, 1, 2, …`, i.e. `np.polyfit(np.arange(len(ys)), ys, 1)[0]` — the
closed form `(n·Σ i·yᵢ − (Σ i)(Σ yᵢ)) / (n·Σ i² − (Σ i)²)` of the least-squares
line's slope.  (`ℚ`-division by zero is 0, but the denominator is nonzero
whenever `2 ≤ ys.length`, the only case in which the program consults it.) -/
def slopeOLS (ys : List ℚ) : ℚ :=
  ((ys.length : ℚ) * ∑ i ∈ Finset.range ys.length, (i : ℚ) * ys.getD i 0
      - (∑ i ∈ Finset.range ys.length, (i : ℚ))
        * ∑ i ∈ Finset.range ys.length, ys.getD i 0)
    / ((ys.length : ℚ) * ∑ i ∈ Finset.range ys.length, (i : ℚ) ^ 2
      - (∑ i ∈ Finset.range ys.length, (i : ℚ)) ^ 2)

/-- Embedding of `trend_score` (`NASDAQ_100_Annual_Analysis.py` lines 174-181,
quarterly lines 149-156): drop the not-available entries (`none` models a
NaN cell; `pd.notna`), return 0 when fewer than 2 values remain, otherwise
`np.tanh(slope / 50)` of the least-squares slope. -/
noncomputable def trend_score (values : List (Option ℚ)) : ℝ :=
  if (values.filterMap id).length < 2 then 0
  else Real.tanh ((slopeOLS (values.filterMap id) : ℝ) / 50)

theorem tanh_lt_one_alt (x : ℝ) : Real.tanh x < 1 := by
  rw [Real.tanh_eq_sinh_div_cosh, div_lt_one (Real.cosh_pos x)]
  exact Real.sinh_lt_cosh x

theorem neg_one_lt_tanh_alt (x : ℝ) : -1 < Real.tanh x := by
  rw [Real.tanh_eq_sinh_div_cosh, lt_div_iff₀ (Real.cosh_pos x)]
  have h := Real.sinh_lt_cosh (-x)
  rw [Real.sinh_neg, Real.cosh_neg] at h
  linarith

theorem tanh_pos_of_pos {x : ℝ} (hx : 0 < x) : 0 < Real.tanh x := by
  rw [Real.tanh_eq_sinh_div_cosh]
  exact div_pos (Real.sinh_pos_iff.2 hx) (Real.cosh_pos x)

theorem tanh_neg_of_neg {x : ℝ} (hx : x < 0) : Real.tanh x < 0 := by
  rw [Real.tanh_eq_sinh_div_cosh]
  exact div_neg_of_neg_of_pos (Real.sinh_neg_iff.2 hx) (Real.cosh_pos x)

/-- The symmetrized double sum over all index pairs equals twice the
covariance-style numerator appearing in the OLS slope. -/
theorem double_sum_eq (n : ℕ) (f g : ℕ → ℚ) :
    ∑ i ∈ Finset.range n, ∑ j ∈ Finset.range n, (f i - f j) * (g i - g j)
      = 2 * ((n : ℚ) * ∑ i ∈ Finset.range n, f i * g i
          - (∑ i ∈ Finset.range n, f i) * ∑ i ∈ Finset.range n, g i) := by
  have hterm : ∀ i j : ℕ, (f i - f j) * (g i - g j)
      = (f i * g i + f j * g j) - (f i * g j + f j * g i) := by
    intro i j; ring
  simp only [hterm, Finset.sum_sub_distrib, Finset.sum_add_distrib, Finset.sum_const,
    Finset.card_range, nsmul_eq_mul, ← Finset.mul_sum, ← Finset.sum_mul]
  ring

/-- If `f` and `g` are strictly increasing on `range n` and `2 ≤ n`, the
symmetrized double sum is strictly positive. -/
theorem double_sum_pos (n : ℕ) (hn : 2 ≤ n) (f g : ℕ → ℚ)
    (hf : ∀ i j, j < n → i < j → f i < f j) (hg : ∀ i j, j < n → i < j → g i < g j) :
    0 < ∑ i ∈ Finset.range n, ∑ j ∈ Finset.range n, (f i - f j) * (g i - g j) := by
  have hterm : ∀ i j, i < n → j < n → 0 ≤ (f i - f j) * (g i - g j) := by
    intro i j hi hj
    rcases lt_trichotomy i j with h | h | h
    · have h1 := hf i j hj h
      have h2 := hg i j hj h
      nlinarith
    · subst h; simp
    · have h1 := hf j i hi h
      have h2 := hg j i hi h
      nlinarith
  apply Finset.sum_pos'
  · intro i hi
    exact Finset.sum_nonneg fun j hj =>
      hterm i j (Finset.mem_range.1 hi) (Finset.mem_range.1 hj)
  · refine ⟨0, Finset.mem_range.2 (by omega), ?_⟩
    apply Finset.sum_pos'
    · intro j hj
      exact hterm 0 j (by omega) (Finset.mem_range.1 hj)
    · refine ⟨1, Finset.mem_range.2 (by omega), ?_⟩
      have h1 := hf 0 1 (by omega) one_pos
      have h2 := hg 0 1 (by omega) one_pos
      nlinarith

/-- The denominator of the OLS slope, `n·Σ i² − (Σ i)²`, is strictly positive
for `2 ≤ n`. -/
theorem slope_denom_pos (n : ℕ) (hn : 2 ≤ n) :
    0 < (n : ℚ) * ∑ i ∈ Finset.range n, (i : ℚ) ^ 2
      - (∑ i ∈ Finset.range n, (i : ℚ)) ^ 2 := by
  have h := double_sum_pos n hn (fun i => (i : ℚ)) (fun i => (i : ℚ))
    (fun i j _ hij => by show (i : ℚ) < (j : ℚ); exact_mod_cast hij)
    (fun i j _ hij => by show (i : ℚ) < (j : ℚ); exact_mod_cast hij)
  have he := double_sum_eq n (fun i => (i : ℚ)) (fun i => (i : ℚ))
  rw [he] at h
  have : (0 : ℚ) < (n : ℚ) * ∑ i ∈ Finset.range n, (i : ℚ) * (i : ℚ)
      - (∑ i ∈ Finset.range n, (i : ℚ)) * ∑ i ∈ Finset.range n, (i : ℚ) := by linarith
  calc (0 : ℚ) < _ := this
    _ = (n : ℚ) * ∑ i ∈ Finset.range n, (i : ℚ) ^ 2
        - (∑ i ∈ Finset.range n, (i : ℚ)) ^ 2 := by
      simp only [sq]

/-- Strict index-wise monotonicity extracted from `List.Pairwise (· < ·)`. -/
theorem pairwise_lt_getD {vs : List ℚ} (h : vs.Pairwise (· < ·)) :
    ∀ i j, j < vs.length → i < j → vs.getD i 0 < vs.getD j 0 := by
  intro i j hj hij
  have hi : i < vs.length := lt_trans hij hj
  rw [List.getD_eq_getElem vs 0 hi, List.getD_eq_getElem vs 0 hj]
  simpa using List.pairwise_iff_get.1 h ⟨i, hi⟩ ⟨j, hj⟩ hij

/-- Strict index-wise antitonicity extracted from `List.Pairwise (· > ·)`. -/
theorem pairwise_gt_getD {vs : List ℚ} (h : vs.Pairwise (· > ·)) :
    ∀ i j, j < vs.length → i < j → vs.getD j 0 < vs.getD i 0 := by
  intro i j hj hij
  have hi : i < vs.length := lt_trans hij hj
  rw [List.getD_eq_getElem vs 0 hi, List.getD_eq_getElem vs 0 hj]
  simpa using List.pairwise_iff_get.1 h ⟨i, hi⟩ ⟨j, hj⟩ hij

/-- A strictly increasing value list of length at least 2 has a strictly
positive OLS slope. -/
theorem slopeOLS_pos {vs : List ℚ} (h2 : 2 ≤ vs.length) (h : vs.Pairwise (· < ·)) :
    0 < slopeOLS vs := by
  have hd := slope_denom_pos vs.length h2
  have hnum := double_sum_pos vs.length h2 (fun i => (i : ℚ)) (fun i => vs.getD i 0)
    (fun i j _ hij => by show (i : ℚ) < (j : ℚ); exact_mod_cast hij)
    (fun i j hj hij => pairwise_lt_getD h i j hj hij)
  rw [double_sum_eq] at hnum
  have hn : 0 < (vs.length : ℚ) * ∑ i ∈ Finset.range vs.length, (i : ℚ) * vs.getD i 0
      - (∑ i ∈ Finset.range vs.length, (i : ℚ))
        * ∑ i ∈ Finset.range vs.length, vs.getD i 0 := by linarith
  exact div_pos hn hd

/-- A strictly decreasing value list of length at least 2 has a strictly
negative OLS slope. -/
theorem slopeOLS_neg {vs : List ℚ} (h2 : 2 ≤ vs.length) (h : vs.Pairwise (· > ·)) :
    slopeOLS vs < 0 := by
  have hd := slope_denom_pos vs.length h2
  have hnum := double_sum_pos vs.length h2 (fun i => (i : ℚ)) (fun i => -vs.getD i 0)
    (fun i j _ hij => by show (i : ℚ) < (j : ℚ); exact_mod_cast hij)
    (fun i j hj hij => by
      have := pairwise_gt_getD h i j hj hij
      simp only [neg_lt_neg_iff]
      exact this)
  rw [double_sum_eq] at hnum
  simp only [mul_neg, Finset.sum_neg_distrib, neg_neg] at hnum
  have hn : (vs.length : ℚ) * ∑ i ∈ Finset.range vs.length, (i : ℚ) * vs.getD i 0
      - (∑ i ∈ Finset.range vs.length, (i : ℚ))
        * ∑ i ∈ Finset.range vs.length, vs.getD i 0 < 0 := by linarith
  exact div_neg_of_neg_of_pos hn hd

/-- A constant value list has OLS slope exactly 0. -/
theorem slopeOLS_const {vs : List ℚ} {c : ℚ} (hc : ∀ x ∈ vs, x = c) :
    slopeOLS vs = 0 := by
  have hy : ∀ i ∈ Finset.range vs.length, vs.getD i 0 = c := by
    intro i hi
    have hi' : i < vs.length := Finset.mem_range.1 hi
    rw [List.getD_eq_getElem vs 0 hi']
    exact hc _ (List.getElem_mem hi')
  have h1 : ∑ i ∈ Finset.range vs.length, (i : ℚ) * vs.getD i 0
      = (∑ i ∈ Finset.range vs.length, (i : ℚ)) * c := by
    rw [Finset.sum_mul]
    exact Finset.sum_congr rfl fun i hi => by rw [hy i hi]
  have h2 : ∑ i ∈ Finset.range vs.length, vs.getD i 0 = (vs.length : ℚ) * c := by
    rw [Finset.sum_congr rfl hy, Finset.sum_const, Finset.card_range, nsmul_eq_mul]
  unfold slopeOLS
  rw [h1, h2]
  have : (vs.length : ℚ) * ((∑ i ∈ Finset.range vs.length, (i : ℚ)) * c)
      - (∑ i ∈ Finset.range vs.length, (i : ℚ)) * ((vs.length : ℚ) * c) = 0 := by ring
  rw [this, zero_div]

/-- C5: after dropping not-available entries, whenever at least 2 values
remain, `trend_score` lies strictly inside `(-1, 1)`; it is exactly 0 on a
constant sequence, strictly positive on a strictly increasing sequence, and
strictly negative on a strictly decreasing one. -/
theorem trend_score_spec (values : List (Option ℚ))
    (h2 : 2 ≤ (values.filterMap id).length) :
    (-1 < trend_score values ∧ trend_score values < 1)
    ∧ ((∃ c, ∀ x ∈ values.filterMap id, x = c) → trend_score values = 0)
    ∧ ((values.filterMap id).Pairwise (· < ·) → 0 < trend_score values)
    ∧ ((values.filterMap id).Pairwise (· > ·) → trend_score values < 0) := by
  have hif : trend_score values
      = Real.tanh ((slopeOLS (values.filterMap id) : ℝ) / 50) := by
    unfold trend_score
    rw [if_neg (by omega)]
  refine ⟨⟨?_, ?_⟩, ?_, ?_, ?_⟩
  · rw [hif]; exact neg_one_lt_tanh_alt _
  · rw [hif]; exact tanh_lt_one_alt _
  · rintro ⟨c, hc⟩
    rw [hif, slopeOLS_const hc]
    norm_num
  · intro hmono
    rw [hif]
    apply tanh_pos_of_pos
    have := slopeOLS_pos h2 hmono
    positivity
  · intro hanti
    rw [hif]
    apply tanh_neg_of_neg
    have h0 : (slopeOLS (values.filterMap id) : ℝ) < 0 := by
      exact_mod_cast slopeOLS_neg h2 hanti
    linarith

/-- Witness for C5 at the concrete strictly increasing input
`[some 0, some 100]`. -/
theorem trend_score_spec_witness :
    (-1 < trend_score [some 0, some 100] ∧ trend_score [some 0, some 100] < 1)
    ∧ 0 < trend_score [some 0, some 100] := by
  have h := trend_score_spec [some 0, some 100] (by simp)
  refine ⟨h.1, h.2.2.1 ?_⟩
  simp only [List.filterMap_cons, id, List.filterMap_nil]
  norm_num [List.pairwise_cons]

/-- C6: whenever fewer than 2 values remain after dropping not-available
entries, `trend_score` returns exactly 0. -/
theorem trend_score_short (values : List (Option ℚ))
    (h : (values.filterMap id).length < 2) : trend_score values = 0 := by
  unfold trend_score
  rw [if_pos h]

/-- Witness for C6 at the concrete one-value input `[some 5, none]`. -/
theorem trend_score_short_witness : trend_score [some 5, none] = 0 :=
  trend_score_short [some 5, none] (by simp)

/-- One merged per-(symbol, period) observation, as appended to the global
`results` list.  Fields absent from a source appear as NaN in the resulting
DataFrame, so they are initialized to `Fl.nan` here.  Periods are embedded as
naturals (`year_int` for the annual script; an ordinal period key for the
quarterly one). -/
structure StatementRecord where
  symbol : String
  period : ℕ
  gross_profit : Fl
  eps : Fl
  current_liabilities : Fl
  other_current_liabilities : Fl
  total_assets : Fl
deriving DecidableEq, Repr

/-- One row of the income-type source for a symbol: period plus the
`Gross Profit` and EPS values extracted from it. -/
structure IncomeRow where
  period : ℕ
  gp : Fl
  eps : Fl
deriving DecidableEq, Repr

/-- One row of the balance-type source for a symbol: period plus
`Current Liabilities`, `Other Current Liabilities` and `Total Assets`. -/
structure BalanceRow where
  period : ℕ
  cl : Fl
  ocl : Fl
  ta : Fl
deriving DecidableEq, Repr

/-- The search predicate `r['Symbol']==symbol and r['Year']==year_int` used by
`next((r for r in results if ...), None)` (annual line 69, quarterly line 53). -/
def matchKey (sym : String) (p : ℕ) (r : StatementRecord) : Bool :=
  r.symbol == sym && r.period == p

/-- The income loop (annual lines 40-58, quarterly lines 32-45): one record
appended per income period, balance fields still absent (NaN). -/
def incomePass (sym : String) (income : List IncomeRow) : List StatementRecord :=
  income.map fun r => ⟨sym, r.period, r.gp, r.eps, Fl.nan, Fl.nan, Fl.nan⟩

/-- The balance-field overwrite applied to the record found by `next(...)`
(annual lines 70-73, quarterly lines 54-57). -/
def setBalance (b : BalanceRow) (r : StatementRecord) : StatementRecord :=
  ⟨r.symbol, r.period, r.gross_profit, r.eps, b.cl, b.ocl, b.ta⟩

/-- In-place update of the first record matching the key, mirroring the
mutation of the object returned by `next(...)`. -/
def updateFirst (sym : String) (b : BalanceRow) : List StatementRecord → List StatementRecord
  | [] => []
  | r :: rs =>
    if matchKey sym b.period r then setBalance b r :: rs
    else r :: updateFirst sym b rs

/-- One iteration of the balance loop (annual lines 61-83, quarterly lines
48-67): look for an existing record with the same (symbol, period); update it
if found, else append a fresh record with NaN income fields. -/
def balanceStep (sym : String) (acc : List StatementRecord) (b : BalanceRow) :
    List StatementRecord :=
  match acc.find? (matchKey sym b.period) with
  | some _ => updateFirst sym b acc
  | none => acc ++ [⟨sym, b.period, Fl.nan, Fl.nan, b.cl, b.ocl, b.ta⟩]

/-- The whole per-symbol merge: the income pass appends to the global results
accumulated so far, then the balance loop folds over the balance rows. -/
def mergeSymbol (sym : String) (income : List IncomeRow) (balance : List BalanceRow)
    (acc : List StatementRecord) : List StatementRecord :=
  balance.foldl (balanceStep sym) (acc ++ incomePass sym income)

/-- The function `updateFirst` rewrites fields of one record in place but never changes a
key, so the number of records matching any key is unchanged. -/
theorem updateFirst_countP (sym : String) (b : BalanceRow) (p : ℕ) :
    ∀ l : List StatementRecord,
      (updateFirst sym b l).countP (matchKey sym p) = l.countP (matchKey sym p)
  | [] => rfl
  | r :: rs => by
    unfold updateFirst
    by_cases h : matchKey sym b.period r = true
    · rw [if_pos h]
      simp only [List.countP_cons]
      have hkey : matchKey sym p (setBalance b r) = matchKey sym p r := by
        simp [matchKey, setBalance]
      rw [hkey]
    · rw [if_neg h]
      simp only [List.countP_cons, updateFirst_countP sym b p rs]

/-- One balance step keeps every key's multiplicity at most 1. -/
theorem balanceStep_countP (sym : String) (acc : List StatementRecord) (b : BalanceRow)
    (h : ∀ p, acc.countP (matchKey sym p) ≤ 1) (p : ℕ) :
    (balanceStep sym acc b).countP (matchKey sym p) ≤ 1 := by
  unfold balanceStep
  cases hfind : acc.find? (matchKey sym b.period) with
  | some r =>
    simp only [updateFirst_countP]
    exact h p
  | none =>
    have hzero : acc.countP (matchKey sym b.period) = 0 := by
      rw [List.countP_eq_zero]
      intro r hr
      exact List.find?_eq_none.1 hfind r hr
    rw [List.countP_append]
    by_cases hp : p = b.period
    · subst hp
      rw [hzero]
      simp [matchKey]
    · have hone : List.countP (matchKey sym p)
          [(⟨sym, b.period, Fl.nan, Fl.nan, b.cl, b.ocl, b.ta⟩ : StatementRecord)] = 0 := by
        simp [matchKey, Ne.symm hp]
      rw [hone]
      simpa using h p

/-- The balance fold preserves the at-most-one-record-per-key invariant. -/
theorem foldl_balanceStep_countP (sym : String) (balance : List BalanceRow) :
    ∀ acc : List StatementRecord, (∀ p, acc.countP (matchKey sym p) ≤ 1) →
      ∀ p, (balance.foldl (balanceStep sym) acc).countP (matchKey sym p) ≤ 1 := by
  induction balance with
  | nil => intro acc h p; exact h p
  | cons b bs ih =>
    intro acc h p
    exact ih (balanceStep sym acc b) (balanceStep_countP sym acc b h) p

/-- With unique income period keys, the income pass produces at most one
record per key. -/
theorem incomePass_countP (sym : String) (income : List IncomeRow)
    (h : (income.map (·.period)).Nodup) (p : ℕ) :
    (incomePass sym income).countP (matchKey sym p) ≤ 1 := by
  induction income with
  | nil => simp [incomePass]
  | cons r rs ih =>
    have hnd : (rs.map (·.period)).Nodup := (List.nodup_cons.1 h).2
    have hnotmem : r.period ∉ rs.map (·.period) := (List.nodup_cons.1 h).1
    simp only [incomePass, List.map_cons, List.countP_cons] at *
    by_cases hp : matchKey sym p (⟨sym, r.period, r.gp, r.eps, Fl.nan, Fl.nan, Fl.nan⟩ :
        StatementRecord) = true
    · have hpp : r.period = p := by
        simpa [matchKey] using hp
      have hzero : List.countP (matchKey sym p)
          (List.map (fun r => (⟨sym, r.period, r.gp, r.eps, Fl.nan, Fl.nan, Fl.nan⟩ :
            StatementRecord)) rs) = 0 := by
        rw [List.countP_eq_zero]
        intro x hx
        rcases List.mem_map.1 hx with ⟨q, hq, rfl⟩
        simp only [matchKey, Bool.and_eq_true, beq_iff_eq]
        rintro ⟨-, hqp⟩
        exact hnotmem (hpp ▸ hqp ▸ List.mem_map_of_mem (·.period) hq)
      rw [hp, hzero]
      simp
    · rw [Bool.of_not_eq_true hp]
      simpa using ih hnd

/-- C8: after the per-symbol merge, at most one `StatementRecord` exists for
every (symbol, period) key — a balance observation whose key matches an
existing income record updates it in place instead of appending a duplicate.
`acc` is the global results list built from previously processed symbols
(records of other symbols only), and the two per-symbol sources have unique
period keys, as the claim assumes. -/
theorem mergeSymbol_at_most_one (sym : String) (income : List IncomeRow)
    (balance : List BalanceRow) (acc : List StatementRecord)
    (hacc : ∀ r ∈ acc, r.symbol ≠ sym)
    (hinc : (income.map (·.period)).Nodup)
    (_hbal : (balance.map (·.period)).Nodup) :
    ∀ p, (mergeSymbol sym income balance acc).countP (matchKey sym p) ≤ 1 := by
  intro p
  unfold mergeSymbol
  apply foldl_balanceStep_countP
  intro q
  rw [List.countP_append]
  have hzero : acc.countP (matchKey sym q) = 0 := by
    rw [List.countP_eq_zero]
    intro r hr
    simp only [matchKey, Bool.and_eq_true, beq_iff_eq]
    rintro ⟨hs, -⟩
    exact hacc r hr hs
  rw [hzero]
  simpa using incomePass_countP sym income hinc q

/-- Witness for C8: a concrete symbol with one income row and one balance row
for the same period ends with a single record for that key. -/
theorem mergeSymbol_at_most_one_witness :
    (mergeSymbol "AAPL" [⟨2023, Fl.num 5, Fl.num 1⟩]
        [⟨2023, Fl.num 2, Fl.num 1, Fl.num 10⟩] []).countP (matchKey "AAPL" 2023) ≤ 1 :=
  mergeSymbol_at_most_one "AAPL" [⟨2023, Fl.num 5, Fl.num 1⟩]
    [⟨2023, Fl.num 2, Fl.num 1, Fl.num 10⟩] [] (by simp) (by simp) (by simp) 2023

theorem Fl.add_nan (x : Fl) : Fl.add x Fl.nan = Fl.nan := by cases x <;> rfl

theorem Fl.nan_mul (x : Fl) : Fl.mul Fl.nan x = Fl.nan := by cases x <;> rfl

theorem Fl.nan_div (x : Fl) : Fl.div Fl.nan x = Fl.nan := by cases x <;> rfl

theorem Fl.div_nan (x : Fl) : Fl.div x Fl.nan = Fl.nan := by cases x <;> rfl

theorem Fl.mul_nan (x : Fl) : Fl.mul x Fl.nan = Fl.nan := by cases x <;> rfl

/-- The presence-or-absence of the two EPS columns in one statement
(`'Basic EPS' in income.columns` / `'Diluted EPS' in income.columns`); a
present column is a total map from period to cell value, `col.get(year, nan)`
supplying NaN for a period without a value. -/
structure IncomeColumns where
  basicEPS : Option (ℕ → Fl)
  dilutedEPS : Option (ℕ → Fl)

/-- Embedding of the per-record EPS extraction (annual lines 45-51, quarterly
lines 34-39): the fallback is decided by column presence, once per statement,
not per period. -/
def epsFor (stmt : IncomeColumns) (period : ℕ) : Fl :=
  match stmt.basicEPS with
  | some col => col period
  | none =>
    match stmt.dilutedEPS with
    | some col => col period
    | none => Fl.nan

/-- C10: whenever a basic-EPS column exists, the diluted-EPS column is never
consulted for any period — the extracted eps is the basic column's cell, and
a period whose basic cell is NaN yields NaN even if a diluted cell is
available for that period. -/
theorem eps_fallback_column_granularity (basic : ℕ → Fl) (diluted : Option (ℕ → Fl))
    (p : ℕ) :
    epsFor ⟨some basic, diluted⟩ p = basic p
    ∧ (basic p = Fl.nan → epsFor ⟨some basic, diluted⟩ p = Fl.nan) := by
  exact ⟨rfl, fun h => h⟩

/-- Witness for C10: basic column present with a NaN cell at the period, a
diluted value 3 available for the same period — the result is still NaN. -/
theorem eps_fallback_column_granularity_witness :
    epsFor ⟨some (fun _ => Fl.nan), some (fun _ => Fl.num 3)⟩ 2023 = Fl.nan :=
  (eps_fallback_column_granularity (fun _ => Fl.nan) (some (fun _ => Fl.num 3)) 2023).2 rfl

/-- C3 counterexample: with all three trend scores 0 and a not-available
normalized ratio score, the code's `Final_Score` is NaN, not the claimed
sum-with-0-contribution (which would be 0). -/
theorem final_score_na_counterexample :
    final_score (Fl.num 0) (Fl.num 0) (Fl.num 0) Fl.nan = Fl.nan
    ∧ Fl.nan ≠ Fl.num 0 := by
  refine ⟨?_, by simp⟩
  norm_num [final_score, Fl.add]

/-- C3 (amended): `Final_Score` is the IEEE float sum of the four components —
when all four are numeric it is their exact sum, but a not-available
component propagates NaN into the sum (it is not treated as a 0
contribution). -/
theorem final_score_spec :
    (∀ g l e s : ℚ, final_score (Fl.num g) (Fl.num l) (Fl.num e) (Fl.num s)
        = Fl.num (g + l + e + s))
    ∧ (∀ g l e : Fl, final_score g l e Fl.nan = Fl.nan) := by
  constructor
  · intro g l e s
    rfl
  · intro g l e
    exact Fl.add_nan _

/-- C2 counterexample: previous value exactly 0 with current value 110 gives
+infinity (NumPy float division by zero), not the claimed not-available. -/
theorem pct_change_zero_prev_counterexample :
    pct_change (Fl.num 110) (Fl.num 0) = Fl.inf ∧ Fl.inf ≠ Fl.nan := by
  refine ⟨?_, by simp⟩
  norm_num [pct_change, Fl.mul, Fl.div, Fl.sub, Fl.add, Fl.neg]

/-- C2 (amended): the percentage change is `(cur - prev)/prev*100`; a
not-available operand yields not-available; `prev = 0` yields not-available
only when `cur = 0` too, and a signed infinity otherwise; previous 100 and
current 110 yield exactly 10; the computation is a total function (it never
raises). -/
theorem pct_change_spec :
    (∀ p : Fl, pct_change Fl.nan p = Fl.nan)
    ∧ (∀ c : Fl, pct_change c Fl.nan = Fl.nan)
    ∧ (∀ c p : ℚ, p ≠ 0 → pct_change (Fl.num c) (Fl.num p) = Fl.num ((c - p) / p * 100))
    ∧ pct_change (Fl.num 110) (Fl.num 100) = Fl.num 10
    ∧ (∀ c : ℚ, pct_change (Fl.num c) (Fl.num 0)
        = if c = 0 then Fl.nan else if 0 < c then Fl.inf else Fl.ninf) := by
  refine ⟨?_, ?_, ?_, ?_, ?_⟩
  · intro p
    cases p <;> rfl
  · intro c
    simp [pct_change, Fl.sub, Fl.neg, Fl.add_nan, Fl.div_nan, Fl.mul_nan, Fl.nan_mul, Fl.nan_div]
  · intro c p hp
    simp only [pct_change, Fl.sub, Fl.neg, Fl.add, Fl.div, if_neg hp, Fl.mul]
    congr 1
    ring
  · norm_num [pct_change, Fl.mul, Fl.div, Fl.sub, Fl.add, Fl.neg]
  · intro c
    by_cases hc : c = 0
    · subst hc
      norm_num [pct_change, Fl.mul, Fl.div, Fl.sub, Fl.add, Fl.neg]
    · by_cases hpos : 0 < c
      · simp only [pct_change, Fl.sub, Fl.neg, Fl.add, Fl.div, Fl.mul, if_neg hc, if_pos hpos]
        norm_num [hc, hpos]
      · simp only [pct_change, Fl.sub, Fl.neg, Fl.add, Fl.div, Fl.mul, if_neg hc, if_neg hpos]
        norm_num [hc, hpos]

/-- Witness for C2 (amended) at previous 100, current 110 and at a NaN
operand. -/
theorem pct_change_spec_witness :
    pct_change (Fl.num 110) (Fl.num 100) = Fl.num 10
    ∧ pct_change Fl.nan (Fl.num 100) = Fl.nan := by
  exact ⟨pct_change_spec.2.2.2.1, pct_change_spec.1 (Fl.num 100)⟩

/-- C4 counterexample: total assets exactly 0 with positive liabilities gives
+infinity, not the claimed not-available. -/
theorem ratio_zero_assets_counterexample :
    liability_to_asset_ratio (Fl.num 50) (Fl.num 10) (Fl.num 0) = Fl.inf
    ∧ Fl.inf ≠ Fl.nan := by
  refine ⟨?_, by simp⟩
  norm_num [liability_to_asset_ratio, Fl.mul, Fl.div, Fl.add]

/-- Embedding of `Option ℚ` inputs (an absent or finite statement field) into
cells: `none` is NaN. -/
def ofOpt (o : Option ℚ) : Fl := o.elim Fl.nan Fl.num

/-- C4 (amended): the ratio is `(cl-or-0 + ocl-or-0)/total_assets*100`; it is
not-available when total assets are absent, and when total assets are exactly
0 it is not-available only if the filled liability sum is 0 too — a nonzero
sum gives a signed infinity.  50, 10 and 200 yield exactly 30 (witness). -/
theorem liability_to_asset_ratio_spec (cl ocl : Option ℚ) :
    liability_to_asset_ratio (ofOpt cl) (ofOpt ocl) Fl.nan = Fl.nan
    ∧ (∀ t : ℚ, t ≠ 0 → liability_to_asset_ratio (ofOpt cl) (ofOpt ocl) (Fl.num t)
        = Fl.num ((cl.getD 0 + ocl.getD 0) / t * 100))
    ∧ liability_to_asset_ratio (ofOpt cl) (ofOpt ocl) (Fl.num 0)
        = (if cl.getD 0 + ocl.getD 0 = 0 then Fl.nan
           else if 0 < cl.getD 0 + ocl.getD 0 then Fl.inf else Fl.ninf) := by
  have hfill : Fl.add (Fl.fillna0 (ofOpt cl)) (Fl.fillna0 (ofOpt ocl))
      = Fl.num (cl.getD 0 + ocl.getD 0) := by
    cases cl <;> cases ocl <;> simp [ofOpt, Fl.add]
  refine ⟨?_, ?_, ?_⟩
  · simp [liability_to_asset_ratio, hfill, Fl.div_nan, Fl.mul_nan, Fl.nan_mul]
  · intro t ht
    simp only [liability_to_asset_ratio, hfill, Fl.div, if_neg ht, Fl.mul]
  · set q := cl.getD 0 + ocl.getD 0 with hq
    by_cases h0 : q = 0
    · simp [liability_to_asset_ratio, hfill, ← hq, Fl.div, h0, Fl.nan_mul]
    · by_cases hpos : 0 < q
      · simp only [liability_to_asset_ratio, hfill, ← hq, Fl.div, Fl.mul, if_neg h0,
          if_pos hpos]
        norm_num
      · simp only [liability_to_asset_ratio, hfill, ← hq, Fl.div, Fl.mul, if_neg h0,
          if_neg hpos]
        norm_num

/-- Witness for C4 (amended): 50, 10 and 200 yield exactly 30. -/
theorem liability_to_asset_ratio_spec_witness :
    liability_to_asset_ratio (Fl.num 50) (Fl.num 10) (Fl.num 200) = Fl.num 30 := by
  have h := (liability_to_asset_ratio_spec (some 50) (some 10)).2.1 200 (by norm_num)
  simp only [ofOpt, Option.elim, Option.getD] at h
  rw [h]
  norm_num

/-- Row index of `df_final` (annual lines 110-126, quarterly lines 91-110):
when no records at all were collected the frame is built directly on the full
symbol list (`pd.DataFrame(index=symbols)`); otherwise it is the pivot /
groupby index — the sorted deduplicated list of symbols occurring in the
collected records. -/
def dfFinalIndex (symbols : List String) (recs : List StatementRecord) : List String :=
  if recs.isEmpty then symbols
  else List.insertionSort (fun a b => a ≤ b) (recs.map (·.symbol)).dedup

/-- Row index of `df_combined = df_final.merge(df_institutional, left_index=True,
right_index=True)` (annual line 168, quarterly line 146): pandas `merge`
defaults to an inner join, so the result keeps the left (`df_final`) index
entries that also occur in the institutional index — which is the full symbol
list, since `get_filtered_institutional_data_df` returns a string for every
symbol, including on error. -/
def dfCombinedIndex (symbols : List String) (recs : List StatementRecord) : List String :=
  (dfFinalIndex symbols recs).filter (fun s => decide (s ∈ symbols))

/-- C1 counterexample: with universe [AAPL, MSFT] where the MSFT fetch failed
(zero records) and AAPL has one record, the final table has no MSFT row —
the inner merge drops it, contradicting the claimed universe completeness. -/
theorem universe_completeness_counterexample :
    "MSFT" ∈ ["AAPL", "MSFT"]
    ∧ "MSFT" ∉ dfCombinedIndex ["AAPL", "MSFT"]
        [⟨"AAPL", 2023, Fl.nan, Fl.nan, Fl.nan, Fl.nan, Fl.nan⟩] := by
  constructor
  · simp
  · simp [dfCombinedIndex, dfFinalIndex, List.insertionSort, List.orderedInsert,
      List.dedup]

/-- C1 (amended): the final table has at most one row per symbol, and a
symbol appears exactly when either no records at all were collected (then
every universe symbol appears) or the symbol has at least one collected
record; a symbol with zero records is dropped by the inner merge whenever any
other symbol has records, though it never prevents the remaining symbols
from being processed and appearing. -/
theorem output_rows_spec (symbols : List String) (recs : List StatementRecord)
    (hsym : symbols.Nodup) :
    (dfCombinedIndex symbols recs).Nodup
    ∧ (∀ s, s ∈ dfCombinedIndex symbols recs ↔
        (if recs.isEmpty then s ∈ symbols
         else s ∈ symbols ∧ ∃ r ∈ recs, r.symbol = s)) := by
  by_cases he : recs.isEmpty
  · constructor
    · simp only [dfCombinedIndex, dfFinalIndex, he, if_pos]
      exact hsym.filter _
    · intro s
      simp [dfCombinedIndex, dfFinalIndex, he, List.mem_filter]
  · have hperm := List.perm_insertionSort (fun a b : String => a ≤ b)
      ((recs.map (·.symbol)).dedup)
    constructor
    · simp only [dfCombinedIndex, dfFinalIndex, he, if_neg]
      exact (hperm.nodup_iff.2 ((recs.map (·.symbol)).nodup_dedup)).filter _
    · intro s
      simp only [dfCombinedIndex, dfFinalIndex, he, if_neg, List.mem_filter,
        hperm.mem_iff, List.mem_dedup, List.mem_map, decide_eq_true_eq, Bool.false_eq_true,
        if_false]
      tauto

/-- Witness for C1 (amended): AAPL (which has a record) appears exactly once
even though MSFT contributed none. -/
theorem output_rows_spec_witness :
    (dfCombinedIndex ["AAPL", "MSFT"]
        [⟨"AAPL", 2023, Fl.nan, Fl.nan, Fl.nan, Fl.nan, Fl.nan⟩]).Nodup
    ∧ "AAPL" ∈ dfCombinedIndex ["AAPL", "MSFT"]
        [⟨"AAPL", 2023, Fl.nan, Fl.nan, Fl.nan, Fl.nan, Fl.nan⟩] := by
  have h := output_rows_spec ["AAPL", "MSFT"]
    [⟨"AAPL", 2023, Fl.nan, Fl.nan, Fl.nan, Fl.nan, Fl.nan⟩] (by simp)
  refine ⟨h.1, (h.2 "AAPL").2 ?_⟩
  simp

/-- Total Boolean comparison on sort keys: the ascending order used to argsort
the non-NaN `Final_Score` keys.  (NaN keys are set aside by the caller, as
pandas does; the relation still places `nan` greatest so it is total.) -/
def Fl.le : Fl → Fl → Bool
  | Fl.nan, Fl.nan => true
  | Fl.nan, _ => false
  | _, Fl.nan => true
  | Fl.ninf, _ => true
  | _, Fl.ninf => false
  | Fl.inf, Fl.inf => true
  | Fl.num _, Fl.inf => true
  | Fl.inf, Fl.num _ => false
  | Fl.num a, Fl.num b => decide (a ≤ b)

/-- Ascending comparison of two output rows (symbol payload, final-score key)
by their key. -/
def scoreLE (a b : String × Fl) : Prop := Fl.le a.2 b.2 = true

instance : DecidableRel scoreLE := fun a b => by
  unfold scoreLE
  infer_instance

instance : IsTotal (String × Fl) scoreLE := by
  constructor
  intro a b
  rcases a with ⟨_, x⟩
  rcases b with ⟨_, y⟩
  cases x <;> cases y <;> simp [scoreLE, Fl.le] <;> exact le_total _ _

instance : IsTrans (String × Fl) scoreLE := by
  constructor
  intro a b c hab hbc
  rcases a with ⟨_, x⟩
  rcases b with ⟨_, y⟩
  rcases c with ⟨_, z⟩
  cases x <;> cases y <;> cases z <;>
    simp_all [scoreLE, Fl.le] <;> exact le_trans hab hbc

/-- Availability `Fl.notna` holds exactly when the cell is not the NaN marker. -/
theorem Fl.notna_iff {x : Fl} : Fl.notna x = true ↔ x ≠ Fl.nan := by
  cases x <;> simp [Fl.notna]

/-- Embedding of `df_combined.sort_values("Final_Score", ascending=False)`
(annual line 200, quarterly line 177), following pandas `nargsort`: for a
descending sort the non-NaN-keyed rows are reversed, argsorted ascending with
a stable kind (NumPy sorts are stable at the sizes in play — introsort falls
back to a stable insertion sort below 16 elements), the resulting order is
reversed again, and the NaN-keyed rows are appended at the end in original
order (`na_position='last'`).  The double reversal around the stable
ascending sort makes the descending sort stable as well. -/
def sort_values_desc (rows : List (String × Fl)) : List (String × Fl) :=
  (List.insertionSort scoreLE ((rows.filter (fun r => Fl.notna r.2)).reverse)).reverse
    ++ rows.filter (fun r => !Fl.notna r.2)

example : sort_values_desc [("A", Fl.num 1), ("B", Fl.num 1)]
    = [("A", Fl.num 1), ("B", Fl.num 1)] := by
  norm_num [sort_values_desc, List.insertionSort, List.orderedInsert, scoreLE,
    Fl.le, Fl.notna, List.filter]

example : sort_values_desc [("A", Fl.num 1), ("B", Fl.num 2)]
    = [("B", Fl.num 2), ("A", Fl.num 1)] := by
  norm_num [sort_values_desc, List.insertionSort, List.orderedInsert, scoreLE,
    Fl.le, Fl.notna, List.filter]

theorem Fl.le_self (x : Fl) : Fl.le x x = true := by
  cases x <;> simp [Fl.le]

/-- Ordered insertion moves a row past strictly larger keys only, so the
subsequence of rows bearing any one key value is preserved, with the inserted
row in front when it bears that key. -/
theorem filter_orderedInsert (k : Fl) (a : String × Fl) :
    ∀ s : List (String × Fl),
      (s.orderedInsert scoreLE a).filter (fun r => r.2 == k)
        = if a.2 == k then a :: s.filter (fun r => r.2 == k)
          else s.filter (fun r => r.2 == k)
  | [] => by
    simp [List.orderedInsert, List.filter_cons]
  | b :: s => by
    simp only [List.orderedInsert]
    by_cases hab : scoreLE a b
    · rw [if_pos hab]
      simp only [List.filter_cons]
    · rw [if_neg hab]
      simp only [List.filter_cons, filter_orderedInsert k a s]
      by_cases hak : (a.2 == k) = true
      · by_cases hbk : (b.2 == k) = true
        · exact absurd (show scoreLE a b by
            show Fl.le a.2 b.2 = true
            rw [beq_iff_eq] at hak hbk
            rw [hak, hbk]
            exact Fl.le_self k) hab
        · simp [hak, hbk]
      · simp [hak]

/-- Insertion sort is stable: the subsequence of rows bearing any one key
value is unchanged. -/
theorem filter_insertionSort (k : Fl) :
    ∀ l : List (String × Fl),
      (List.insertionSort scoreLE l).filter (fun r => r.2 == k)
        = l.filter (fun r => r.2 == k)
  | [] => rfl
  | a :: l => by
    simp only [List.insertionSort]
    rw [filter_orderedInsert k a (List.insertionSort scoreLE l),
      filter_insertionSort k l]
    simp only [List.filter_cons]

theorem Fl.nan_sub (x : Fl) : Fl.sub Fl.nan x = Fl.nan := by cases x <;> rfl

theorem Fl.sub_nan (x : Fl) : Fl.sub x Fl.nan = Fl.nan := Fl.add_nan x

theorem Fl.sub_num (x y : ℚ) : Fl.sub (Fl.num x) (Fl.num y) = Fl.num (x - y) := by
  simp [Fl.sub, Fl.add, Fl.neg, sub_eq_add_neg]

/-- pandas `Series.min()` (`min_val = df_combined["Liability_to_Asset_Ratio"].min()`,
annual line 188, quarterly line 166): skipna minimum over the available cells,
NaN for an all-NaN column. -/
def seriesMin (l : List Fl) : Fl :=
  match l.filter (fun v => Fl.notna v) with
  | [] => Fl.nan
  | v :: vs => vs.foldl (fun x y => if Fl.le x y then x else y) v

/-- pandas `Series.max()` (annual line 189, quarterly line 167). -/
def seriesMax (l : List Fl) : Fl :=
  match l.filter (fun v => Fl.notna v) with
  | [] => Fl.nan
  | v :: vs => vs.foldl (fun x y => if Fl.le x y then y else x) v

/-- The min-max normalization
`(df_combined["Liability_to_Asset_Ratio"] - min_val) / (max_val - min_val)`
(annual line 190, quarterly line 168) applied to one symbol's mean-ratio cell
`v`, with min and max taken over the whole universe column `ratios`. -/
def liability_to_asset_score (ratios : List Fl) (v : Fl) : Fl :=
  Fl.div (Fl.sub v (seriesMin ratios)) (Fl.sub (seriesMax ratios) (seriesMin ratios))

/-- Folding the binary minimum over finite cells starting from a finite cell
yields the minimum: a finite value below the start and every element. -/
theorem foldl_min_num (vs : List Fl) : ∀ a : ℚ, (∀ v ∈ vs, ∃ q : ℚ, v = Fl.num q) →
    ∃ m : ℚ, vs.foldl (fun x y => if Fl.le x y then x else y) (Fl.num a) = Fl.num m
      ∧ (m = a ∨ Fl.num m ∈ vs) ∧ m ≤ a ∧ ∀ q : ℚ, Fl.num q ∈ vs → m ≤ q := by
  induction vs with
  | nil =>
    intro a _
    exact ⟨a, rfl, Or.inl rfl, le_refl a, by simp⟩
  | cons v vs ih =>
    intro a h
    obtain ⟨b, rfl⟩ := h v (List.mem_cons_self v vs)
    have hstep : (if Fl.le (Fl.num a) (Fl.num b) then Fl.num a else Fl.num b)
        = Fl.num (min a b) := by
      by_cases hab : a ≤ b
      · simp [Fl.le, hab, min_eq_left hab]
      · simp [Fl.le, hab, min_eq_right (le_of_not_le hab)]
    obtain ⟨m, heq, hmem, hle, hall⟩ :=
      ih (min a b) (fun w hw => h w (List.mem_cons_of_mem _ hw))
    refine ⟨m, ?_, ?_, ?_, ?_⟩
    · rw [List.foldl_cons, hstep, heq]
    · rcases hmem with hma | hmv
      · rcases le_total a b with hab | hab
        · exact Or.inl (by rw [hma, min_eq_left hab])
        · exact Or.inr (by rw [hma, min_eq_right hab]; exact List.mem_cons_self _ _)
      · exact Or.inr (List.mem_cons_of_mem _ hmv)
    · exact le_trans hle (min_le_left a b)
    · intro q hq
      rcases List.mem_cons.1 hq with hqv | hqvs
      · have hqb : q = b := by simpa using hqv
        rw [hqb]
        exact le_trans hle (min_le_right a b)
      · exact hall q hqvs

/-- Folding the binary maximum over finite cells starting from a finite cell
yields the maximum. -/
theorem foldl_max_num (vs : List Fl) : ∀ a : ℚ, (∀ v ∈ vs, ∃ q : ℚ, v = Fl.num q) →
    ∃ m : ℚ, vs.foldl (fun x y => if Fl.le x y then y else x) (Fl.num a) = Fl.num m
      ∧ (m = a ∨ Fl.num m ∈ vs) ∧ a ≤ m ∧ ∀ q : ℚ, Fl.num q ∈ vs → q ≤ m := by
  induction vs with
  | nil =>
    intro a _
    exact ⟨a, rfl, Or.inl rfl, le_refl a, by simp⟩
  | cons v vs ih =>
    intro a h
    obtain ⟨b, rfl⟩ := h v (List.mem_cons_self v vs)
    have hstep : (if Fl.le (Fl.num a) (Fl.num b) then Fl.num b else Fl.num a)
        = Fl.num (max a b) := by
      by_cases hab : a ≤ b
      · simp [Fl.le, hab, max_eq_right hab]
      · simp [Fl.le, hab, max_eq_left (le_of_not_le hab)]
    obtain ⟨m, heq, hmem, hle, hall⟩ :=
      ih (max a b) (fun w hw => h w (List.mem_cons_of_mem _ hw))
    refine ⟨m, ?_, ?_, ?_, ?_⟩
    · rw [List.foldl_cons, hstep, heq]
    · rcases hmem with hma | hmv
      · rcases le_total a b with hab | hab
        · exact Or.inr (by rw [hma, max_eq_right hab]; exact List.mem_cons_self _ _)
        · exact Or.inl (by rw [hma, max_eq_left hab])
      · exact Or.inr (List.mem_cons_of_mem _ hmv)
    · exact le_trans (le_max_left a b) hle
    · intro q hq
      rcases List.mem_cons.1 hq with hqv | hqvs
      · have hqb : q = b := by simpa using hqv
        rw [hqb]
        exact le_trans (le_max_right a b) hle
      · exact hall q hqvs

/-- Characterization of the skipna minimum on a finite-or-NaN column: either
no finite cell exists and the minimum is NaN, or it is an attained finite
lower bound. -/
theorem seriesMin_spec (l : List Fl)
    (hfin : ∀ v ∈ l, v = Fl.nan ∨ ∃ q : ℚ, v = Fl.num q) :
    (seriesMin l = Fl.nan ∧ ∀ q : ℚ, Fl.num q ∉ l)
    ∨ ∃ a : ℚ, seriesMin l = Fl.num a ∧ Fl.num a ∈ l
        ∧ ∀ q : ℚ, Fl.num q ∈ l → a ≤ q := by
  cases hf : l.filter (fun v => Fl.notna v) with
  | nil =>
    left
    constructor
    · unfold seriesMin
      rw [hf]
    · intro q hq
      have : Fl.num q ∈ l.filter (fun v => Fl.notna v) :=
        List.mem_filter.2 ⟨hq, rfl⟩
      rw [hf] at this
      exact absurd this (List.not_mem_nil _)
  | cons v vs =>
    right
    have hv : v ∈ l.filter (fun v => Fl.notna v) := hf ▸ List.mem_cons_self v vs
    have hvl : v ∈ l := (List.mem_filter.1 hv).1
    have hvfin : ∃ b : ℚ, v = Fl.num b := by
      rcases hfin v hvl with rfl | hb
      · have := (List.mem_filter.1 hv).2
        simp [Fl.notna] at this
      · exact hb
    obtain ⟨b, rfl⟩ := hvfin
    have hvsfin : ∀ w ∈ vs, ∃ q : ℚ, w = Fl.num q := by
      intro w hw
      have hwf : w ∈ l.filter (fun v => Fl.notna v) := hf ▸ List.mem_cons_of_mem _ hw
      rcases hfin w (List.mem_filter.1 hwf).1 with rfl | hq
      · have := (List.mem_filter.1 hwf).2
        simp [Fl.notna] at this
      · exact hq
    obtain ⟨m, heq, hmem, hle, hall⟩ := foldl_min_num vs b hvsfin
    refine ⟨m, ?_, ?_, ?_⟩
    · unfold seriesMin
      rw [hf]
      exact heq
    · rcases hmem with rfl | hmv
      · exact hvl
      · have : Fl.num m ∈ l.filter (fun v => Fl.notna v) := hf ▸ List.mem_cons_of_mem _ hmv
        exact (List.mem_filter.1 this).1
    · intro q hq
      have hqf : Fl.num q ∈ l.filter (fun v => Fl.notna v) := List.mem_filter.2 ⟨hq, rfl⟩
      rw [hf] at hqf
      rcases List.mem_cons.1 hqf with hqv | hqvs
      · have hqb : q = b := by simpa using hqv
        rw [hqb]
        exact hle
      · exact hall q hqvs

/-- Characterization of the skipna maximum on a finite-or-NaN column. -/
theorem seriesMax_spec (l : List Fl)
    (hfin : ∀ v ∈ l, v = Fl.nan ∨ ∃ q : ℚ, v = Fl.num q) :
    (seriesMax l = Fl.nan ∧ ∀ q : ℚ, Fl.num q ∉ l)
    ∨ ∃ b : ℚ, seriesMax l = Fl.num b ∧ Fl.num b ∈ l
        ∧ ∀ q : ℚ, Fl.num q ∈ l → q ≤ b := by
  cases hf : l.filter (fun v => Fl.notna v) with
  | nil =>
    left
    constructor
    · unfold seriesMax
      rw [hf]
    · intro q hq
      have : Fl.num q ∈ l.filter (fun v => Fl.notna v) :=
        List.mem_filter.2 ⟨hq, rfl⟩
      rw [hf] at this
      exact absurd this (List.not_mem_nil _)
  | cons v vs =>
    right
    have hv : v ∈ l.filter (fun v => Fl.notna v) := hf ▸ List.mem_cons_self v vs
    have hvl : v ∈ l := (List.mem_filter.1 hv).1
    have hvfin : ∃ b : ℚ, v = Fl.num b := by
      rcases hfin v hvl with rfl | hb
      · have := (List.mem_filter.1 hv).2
        simp [Fl.notna] at this
      · exact hb
    obtain ⟨b, rfl⟩ := hvfin
    have hvsfin : ∀ w ∈ vs, ∃ q : ℚ, w = Fl.num q := by
      intro w hw
      have hwf : w ∈ l.filter (fun v => Fl.notna v) := hf ▸ List.mem_cons_of_mem _ hw
      rcases hfin w (List.mem_filter.1 hwf).1 with rfl | hq
      · have := (List.mem_filter.1 hwf).2
        simp [Fl.notna] at this
      · exact hq
    obtain ⟨m, heq, hmem, hle, hall⟩ := foldl_max_num vs b hvsfin
    refine ⟨m, ?_, ?_, ?_⟩
    · unfold seriesMax
      rw [hf]
      exact heq
    · rcases hmem with rfl | hmv
      · exact hvl
      · have : Fl.num m ∈ l.filter (fun v => Fl.notna v) := hf ▸ List.mem_cons_of_mem _ hmv
        exact (List.mem_filter.1 this).1
    · intro q hq
      have hqf : Fl.num q ∈ l.filter (fun v => Fl.notna v) := List.mem_filter.2 ⟨hq, rfl⟩
      rw [hf] at hqf
      rcases List.mem_cons.1 hqf with hqv | hqvs
      · have hqb : q = b := by simpa using hqv
        rw [hqb]
        exact hle
      · exact hall q hqvs

/-- C9 (amended): the min-max normalization is a total function (it cannot
raise), and on a universe whose mean liability-to-asset ratios are all finite
or not-available: when the column minimum and maximum coincide every symbol's
score is not-available (the available cells all hit the `0/0 = NaN` case and
the NaN cells propagate), and otherwise the finite cells receive exactly
`(value - min)/(max - min)`, sending the universe minimum to 0 and the
maximum to 1.  (An infinite mean ratio — reachable when total assets are 0
with nonzero liabilities — escapes this: see the counterexample, where the
infinite maximum maps to NaN rather than 1.) -/
theorem liability_to_asset_score_spec (ratios : List Fl)
    (hfin : ∀ v ∈ ratios, v = Fl.nan ∨ ∃ q : ℚ, v = Fl.num q) :
    (seriesMin ratios = seriesMax ratios →
       ∀ v ∈ ratios, liability_to_asset_score ratios v = Fl.nan)
    ∧ (seriesMin ratios ≠ seriesMax ratios →
       ∃ a b : ℚ, seriesMin ratios = Fl.num a ∧ seriesMax ratios = Fl.num b ∧ a < b
         ∧ (∀ q : ℚ, liability_to_asset_score ratios (Fl.num q)
             = Fl.num ((q - a) / (b - a)))
         ∧ liability_to_asset_score ratios (Fl.num a) = Fl.num 0
         ∧ liability_to_asset_score ratios (Fl.num b) = Fl.num 1) := by
  constructor
  · intro heq v hv
    rcases hfin v hv with rfl | ⟨q, rfl⟩
    · unfold liability_to_asset_score
      rw [Fl.nan_sub, Fl.nan_div]
    · rcases seriesMin_spec ratios hfin with ⟨-, hnone⟩ | ⟨a, hmin, -, hlow⟩
      · exact absurd hv (hnone q)
      · rcases seriesMax_spec ratios hfin with ⟨hmaxnan, -⟩ | ⟨b, hmax, -, hupp⟩
        · rw [heq, hmaxnan] at hmin
          exact absurd hmin (by simp)
        · have hba : b = a := by
            have := heq ▸ hmax
            rw [hmin] at this
            simpa using this.symm
          have hqa : q = a := le_antisymm (hba ▸ hupp q hv) (hlow q hv)
          unfold liability_to_asset_score
          rw [hmin, hmax, hba, hqa, Fl.sub_num]
          simp [Fl.div]
  · intro hne
    rcases seriesMin_spec ratios hfin with ⟨hminnan, hnone⟩ | ⟨a, hmin, hmema, hlow⟩
    · rcases seriesMax_spec ratios hfin with ⟨hmaxnan, -⟩ | ⟨b, -, hmemb, -⟩
      · exact absurd (hminnan.trans hmaxnan.symm) hne
      · exact absurd hmemb (hnone b)
    · rcases seriesMax_spec ratios hfin with ⟨-, hnoneM⟩ | ⟨b, hmax, hmemb, hupp⟩
      · exact absurd hmema (hnoneM a)
      · have hab : a ≤ b := hupp a hmema
        have hlt : a < b := lt_of_le_of_ne hab (by
          rintro rfl
          exact hne (hmin.trans hmax.symm))
        have hform : ∀ q : ℚ, liability_to_asset_score ratios (Fl.num q)
            = Fl.num ((q - a) / (b - a)) := by
          intro q
          unfold liability_to_asset_score
          rw [hmin, hmax, Fl.sub_num, Fl.sub_num]
          have hba : b - a ≠ 0 := sub_ne_zero.2 hlt.ne'
          simp [Fl.div, hba]
        refine ⟨a, b, hmin, hmax, hlt, hform, ?_, ?_⟩
        · rw [hform a]
          norm_num
        · rw [hform b]
          rw [div_self (sub_ne_zero.2 hlt.ne')]

/-- C9 counterexample: a universe containing an infinite mean ratio (total
assets 0 with positive liabilities, exactly the behavior established in the
C4 correction) has distinct min and max, the infinity counts as available
(`pd.notna(inf)` is true), yet the universe maximum maps to NaN, not 1:
`(inf - 10)/(inf - 10) = inf/inf = nan`. -/
theorem minmax_inf_counterexample :
    seriesMin [Fl.num 10, Fl.inf] = Fl.num 10
    ∧ seriesMax [Fl.num 10, Fl.inf] = Fl.inf
    ∧ seriesMin [Fl.num 10, Fl.inf] ≠ seriesMax [Fl.num 10, Fl.inf]
    ∧ Fl.notna Fl.inf = true
    ∧ liability_to_asset_score [Fl.num 10, Fl.inf] Fl.inf = Fl.nan
    ∧ Fl.nan ≠ Fl.num 1 := by
  have hmin : seriesMin [Fl.num 10, Fl.inf] = Fl.num 10 := by
    simp [seriesMin, Fl.notna, Fl.le, List.filter]
  have hmax : seriesMax [Fl.num 10, Fl.inf] = Fl.inf := by
    simp [seriesMax, Fl.notna, Fl.le, List.filter]
  refine ⟨hmin, hmax, ?_, rfl, ?_, by simp⟩
  · rw [hmin, hmax]
    simp
  · unfold liability_to_asset_score
    rw [hmin, hmax]
    simp [Fl.sub, Fl.neg, Fl.add, Fl.div]

/-- Witness for C9 on the degenerate universe [10, 10]: min equals max, and
the normalization yields not-available without raising. -/
theorem liability_to_asset_score_spec_witness :
    liability_to_asset_score [Fl.num 10, Fl.num 10] (Fl.num 10) = Fl.nan := by
  have hfin : ∀ v ∈ [Fl.num 10, Fl.num 10],
      v = Fl.nan ∨ ∃ q : ℚ, v = Fl.num q := by
    rintro v hv
    simp only [List.mem_cons, List.not_mem_nil, or_false] at hv
    rcases hv with rfl | rfl
    · exact Or.inr ⟨10, rfl⟩
    · exact Or.inr ⟨10, rfl⟩
  refine (liability_to_asset_score_spec [Fl.num 10, Fl.num 10] hfin).1 ?_ (Fl.num 10)
    (by simp)
  show seriesMin _ = seriesMax _
  norm_num [seriesMin, seriesMax, Fl.notna]
